import Mathlib

/-!
Verification of the core routing and diff-parsing logic of
`post_review_comments.py` from the pr-reviewer repository.

The Python functions `parse_diff_for_line_mapping`, `severity_emoji`,
`format_review_comment` and the comment-routing loop of
`post_review_comments` are shallowly embedded as executable Lean
definitions.  Python strings are modelled as Lean `String`s; string
primitives (`startswith`, slicing, `split('\n')`, `upper`, f-string
interpolation of integers) are given explicit structural
implementations on `List Char` so that every definition evaluates by
kernel reduction.  Python's ordered `dict` of lists is modelled as an
insertion-ordered association list, and the `file_lines[current_file]`
subscript (which would raise `KeyError` on a missing key) is modelled
as an `Option`-valued operation, so totality of the parser is a real
theorem rather than a modelling artifact.
-/

namespace PRReviewer

/-! ### String primitives -/

/-- Drop an expected literal character prefix from a character list,
returning the remainder, or `none` when the list does not start with
that sequence of characters.  Models anchored literal matching as done
by `str.startswith` and by `re.match` on a literal pattern piece. -/
def dropPref : List Char → List Char → Option (List Char)
  | [], l => some l
  | _ :: _, [] => none
  | p :: ps, c :: cs => if c = p then dropPref ps cs else none

/-- Model of Python `line.startswith(p)`. -/
def pyStartsWith (s p : String) : Bool :=
  (dropPref p.toList s.toList).isSome

/-- Split a character list at newline characters, keeping empty
segments, exactly like Python `str.split('\n')`. -/
def splitNlAux : List Char → List (List Char)
  | [] => [[]]
  | c :: cs =>
    if c = '\n' then [] :: splitNlAux cs
    else
      match splitNlAux cs with
      | [] => [[c]]
      | l :: ls => (c :: l) :: ls

/-- Model of Python `diff_text.split('\n')`. -/
def pySplitLines (s : String) : List String :=
  (splitNlAux s.toList).map String.mk

/-- ASCII uppercasing of one character, as Python `str.upper` acts on
the ASCII severities used by the program. -/
def asciiUpper (c : Char) : Char :=
  if 'a' ≤ c ∧ c ≤ 'z' then Char.ofNat (c.toNat - 32) else c

/-- Model of Python `severity.upper()`. -/
def pyUpper (s : String) : String :=
  String.mk (s.toList.map asciiUpper)

/-- Decimal digits of a positive natural, most significant first,
computed with an explicit fuel argument so that the definition is
structurally recursive and kernel-reducible. -/
def natDigitsAux : Nat → Nat → List Char
  | 0, _ => []
  | fuel + 1, n =>
    if n = 0 then []
    else natDigitsAux fuel (n / 10) ++ [Char.ofNat (48 + n % 10)]

/-- Decimal rendering of a natural number, as Python `str`. -/
def pyNatStr (n : Nat) : String :=
  if n = 0 then "0" else String.mk (natDigitsAux (n + 1) n)

/-- Decimal rendering of an integer, as Python f-string interpolation
`f"{line}"` renders an `int`. -/
def pyIntStr : Int → String
  | Int.ofNat n => pyNatStr n
  | Int.negSucc n => "-" ++ pyNatStr (n + 1)

/-! ### Hunk-header matching

`re.match(r'@@ -\d+(?:,\d+)? \+(\d+)(?:,\d+)? @@', line)` is an
anchored prefix match.  The pattern is deterministic: each `\d+` is a
maximal digit run (the following required character is never a digit)
and each optional `(?:,\d+)?` group is taken exactly when a comma
followed by a digit is present, so the regex is faithfully implemented
by the sequential character parser below. -/

/-- Consume a maximal run of further digits, accumulating their value. -/
def readDigitsAux : Nat → List Char → Nat × List Char
  | acc, [] => (acc, [])
  | acc, c :: cs =>
    if c.isDigit then readDigitsAux (acc * 10 + (c.toNat - 48)) cs
    else (acc, c :: cs)

/-- Consume one or more digits (`\d+`), returning their value and the
remaining characters, or `none` when the first character is not a
digit. -/
def readDigits : List Char → Option (Nat × List Char)
  | [] => none
  | c :: cs =>
    if c.isDigit then some (readDigitsAux (c.toNat - 48) cs) else none

/-- Consume the optional `(?:,\d+)?` group: when a comma is present the
group must match (a comma not followed by digits makes the whole
pattern fail, since the next required pattern character is a space). -/
def skipOptCommaDigits (l : List Char) : Option (List Char) :=
  match l with
  | ',' :: rest => (readDigits rest).map (fun r => r.2)
  | _ => some l

/-- Consume one expected literal character. -/
def expectChar (c : Char) : List Char → Option (List Char)
  | [] => none
  | x :: xs => if x = c then some xs else none

/-- The new-file start line captured by
`re.match(r'@@ -\d+(?:,\d+)? \+(\d+)(?:,\d+)? @@', line)`, or `none`
when the pattern does not match at the start of the line. -/
def parse_hunk_header (line : String) : Option Nat :=
  match dropPref "@@ -".toList line.toList with
  | none => none
  | some r1 =>
    match readDigits r1 with
    | none => none
    | some (_, r2) =>
      match skipOptCommaDigits r2 with
      | none => none
      | some r3 =>
        match expectChar ' ' r3 with
        | none => none
        | some r4 =>
          match expectChar '+' r4 with
          | none => none
          | some r5 =>
            match readDigits r5 with
            | none => none
            | some (n, r6) =>
              match skipOptCommaDigits r6 with
              | none => none
              | some r7 =>
                match expectChar ' ' r7 with
                | none => none
                | some r8 =>
                  match expectChar '@' r8 with
                  | none => none
                  | some r9 =>
                    match expectChar '@' r9 with
                    | none => none
                    | some _ => some n

/-- The path captured by `re.match(r'\+\+\+ b/(.*)', line)`: the rest
of the line after a literal `+++ b/` prefix (lines contain no newline,
so `(.*)` captures everything to the end). -/
def extractPath (line : String) : Option String :=
  (dropPref "+++ b/".toList line.toList).map String.mk

/-! ### The diff parser -/

/-- Insertion-ordered association list modelling the Python `dict`
`{file_path: [changed line numbers]}`. -/
abbrev FileLines := List (String × List Int)

/-- Membership test, Python `current_file not in file_lines` negated. -/
def containsKey : FileLines → String → Bool
  | [], _ => false
  | (k, _) :: rest, f => k = f || containsKey rest f

/-- Lookup, Python `file_lines[file]` as a total observation. -/
def lookupList : FileLines → String → Option (List Int)
  | [], _ => none
  | (k, v) :: rest, f => if k = f then some v else lookupList rest f

/-- Python `if current_file not in file_lines: file_lines[current_file] = []`:
a missing key is appended at the end, as dict insertion order does. -/
def insertIfAbsent (fl : FileLines) (f : String) : FileLines :=
  if containsKey fl f then fl else fl ++ [(f, [])]

/-- Python `file_lines[current_file].append(n)`.  Subscripting a
missing key raises `KeyError`, modelled by `none`. -/
def appendAt : FileLines → String → Int → Option FileLines
  | [], _, _ => none
  | (k, v) :: rest, f, n =>
    if k = f then some ((k, v ++ [n]) :: rest)
    else (appendAt rest f n).map (fun r => (k, v) :: r)

/-- The scan state of `parse_diff_for_line_mapping`: the accumulated
index, the current file (`None` initially and after a `diff --git`
boundary) and the line cursor. -/
structure DiffState where
  file_lines : FileLines
  current_file : Option String
  current_line : Int
deriving DecidableEq, Repr

/-- Python truthiness of `current_file`: a non-`None`, non-empty
string. -/
def truthyFile : Option String → Bool
  | none => false
  | some f => !(f = "")

/-- One iteration of the `for line in diff_text.split('\n')` loop of
`parse_diff_for_line_mapping`, with the same branch structure as the
Python `if`/`elif` chain.  `none` models a `KeyError` on the append. -/
def processLine (st : DiffState) (line : String) : Option DiffState :=
  if pyStartsWith line "diff --git" then
    some { st with current_file := none }
  else if pyStartsWith line "+++" then
    match extractPath line with
    | some f =>
      some { st with current_file := some f,
                     file_lines := insertIfAbsent st.file_lines f }
    | none => some st
  else if pyStartsWith line "@@" then
    match parse_hunk_header line with
    | some n => some { st with current_line := Int.ofNat n }
    | none => some st
  else if truthyFile st.current_file && pyStartsWith line "+"
          && !pyStartsWith line "+++" then
    match st.current_file with
    | some f =>
      match appendAt st.file_lines f st.current_line with
      | some fl =>
        some { st with file_lines := fl,
                       current_line := st.current_line + 1 }
      | none => none
    | none => none
  else if truthyFile st.current_file && !pyStartsWith line "-" then
    some { st with current_line := st.current_line + 1 }
  else
    some st

/-- The whole scan loop over the split lines. -/
def processLines : DiffState → List String → Option DiffState
  | st, [] => some st
  | st, l :: ls =>
    match processLine st l with
    | some st2 => processLines st2 ls
    | none => none

/-- The initial scan state: empty index, no current file, cursor 0. -/
def initState : DiffState := ⟨[], none, 0⟩

/-- `parse_diff_for_line_mapping`, with the fallible dict subscript
surfaced: `none` would mean an uncaught `KeyError`. -/
def parseDiffOpt (diff_text : String) : Option FileLines :=
  (processLines initState (pySplitLines diff_text)).map DiffState.file_lines

/-- `parse_diff_for_line_mapping` as the total function it in fact is
(see `parseDiffOpt_isSome`). -/
def parse_diff_for_line_mapping (diff_text : String) : FileLines :=
  (parseDiffOpt diff_text).getD []

/-! ### Comment rendering -/

/-- A review finding, after the `review.get(...)` defaulting the code
performs: a missing `file` is `""`, a missing `line` is `0`, a missing
`severity` is `"INFO"`, missing `message`/`suggestion` are `""`. -/
structure Review where
  file : String
  line : Int
  severity : String
  message : String
  suggestion : String
deriving DecidableEq, Repr

/-- `severity_emoji`: the closed emoji map keyed on the uppercased
severity, with the speech-balloon fallback. -/
def severity_emoji (severity : String) : String :=
  let s := pyUpper severity
  if s = "CRITICAL" then "🔴"
  else if s = "WARNING" then "🟡"
  else if s = "SUGGESTION" then "🟢"
  else if s = "INFO" then "💡"
  else "💬"

/-- `format_review_comment`: severity glyph and label line, blank line,
message, and — when the suggestion is truthy (a non-empty string) — a
fenced suggestion block. -/
def format_review_comment (r : Review) : String :=
  let comment :=
    severity_emoji r.severity ++ " **" ++ r.severity ++ "**\n\n" ++ r.message
  if r.suggestion = "" then comment
  else comment ++ "\n\n**Suggested fix:**\n```\n" ++ r.suggestion ++ "\n```"

/-! ### The comment router of `post_review_comments` -/

/-- An inline review comment `{'path': ..., 'line': ..., 'body': ...}`. -/
structure InlineComment where
  path : String
  line : Int
  body : String
deriving DecidableEq, Repr

/-- Python `min(changed_lines, key=lambda x: abs(x - line))` keeps the
first element and replaces it only when a strictly smaller key
appears, so it returns the earliest-occurring minimizer. -/
def py_min_key (key : Int → Int) : Int → List Int → Int
  | best, [] => best
  | best, x :: xs =>
    if key x < key best then py_min_key key x xs else py_min_key key best xs

/-- The closest-changed-line selection of `post_review_comments`,
`min(changed_lines, key=lambda x: abs(x - line))`; `none` models the
`ValueError` Python `min` raises on an empty sequence (the code only
calls it on non-empty ones). -/
def closest_line (changed_lines : List Int) (line : Int) : Option Int :=
  match changed_lines with
  | [] => none
  | x :: xs => some (py_min_key (fun c => |c - line|) x xs)

/-- The general-comment body built at the unresolved branches of the
loop: `f"**{file}:{line}**\n{format_review_comment(review)}"`. -/
def general_unresolved_body (r : Review) : String :=
  "**" ++ r.file ++ ":" ++ pyIntStr r.line ++ "**\n" ++ format_review_comment r

/-- One iteration of the routing loop of `post_review_comments`: what
it appends to `comments` and to `general_comment_parts` for one
finding, with the same branch structure as the Python code (including
the redundant inner `if changed_lines:` check). -/
def route_finding (fl : FileLines) (r : Review) :
    List InlineComment × List String :=
  if r.file = "error" ∨ r.file = "general" ∨ r.line = 0 then
    ([], [format_review_comment r])
  else
    match lookupList fl r.file with
    | some changed =>
      if changed ≠ [] then
        match closest_line changed r.line with
        | some cl => ([⟨r.file, cl, format_review_comment r⟩], [])
        | none => ([], [general_unresolved_body r])
      else ([], [general_unresolved_body r])
    | none => ([], [general_unresolved_body r])

/-- The whole routing loop over the findings, accumulating
`comments` and `general_comment_parts` in input order. -/
def route_findings (fl : FileLines) : List Review →
    List InlineComment × List String
  | [] => ([], [])
  | r :: rest =>
    let h := route_finding fl r
    let t := route_findings fl rest
    (h.1 ++ t.1, h.2 ++ t.2)

/-! ### Association-list lemmas -/

theorem containsKey_eq_isSome_lookupList :
    ∀ (fl : FileLines) (f : String),
      containsKey fl f = (lookupList fl f).isSome := by
  intro fl f
  induction fl with
  | nil => rfl
  | cons kv rest ih =>
    obtain ⟨k, v⟩ := kv
    by_cases hk : k = f <;> simp [containsKey, lookupList, hk, ih]

theorem appendAt_isSome {fl : FileLines} {f : String} (n : Int)
    (h : containsKey fl f = true) : (appendAt fl f n).isSome = true := by
  induction fl with
  | nil => simp [containsKey] at h
  | cons kv rest ih =>
    obtain ⟨k, v⟩ := kv
    by_cases hk : k = f
    · simp [appendAt, hk]
    · simp [containsKey, hk] at h
      simp [appendAt, hk, ih h]

theorem appendAt_containsKey {fl fl' : FileLines} {f : String} {n : Int}
    (h : appendAt fl f n = some fl') (g : String) :
    containsKey fl' g = containsKey fl g := by
  induction fl generalizing fl' with
  | nil => simp [appendAt] at h
  | cons kv rest ih =>
    obtain ⟨k, v⟩ := kv
    by_cases hk : k = f
    · subst hk
      simp [appendAt] at h
      subst h
      simp [containsKey]
    · simp [appendAt, hk] at h
      obtain ⟨r, hr, hfl⟩ := h
      subst hfl
      simp [containsKey, ih hr]

theorem appendAt_lookupList {fl fl' : FileLines} {f : String} {n : Int}
    (h : appendAt fl f n = some fl') (g : String) (v' : List Int)
    (hg : lookupList fl' g = some v') :
    (g = f ∧ ∃ v, lookupList fl g = some v ∧ v' = v ++ [n])
    ∨ (lookupList fl g = some v') := by
  induction fl generalizing fl' with
  | nil => simp [appendAt] at h
  | cons kv rest ih =>
    obtain ⟨k, v⟩ := kv
    by_cases hk : k = f
    · subst hk
      simp [appendAt] at h
      subst h
      by_cases hg2 : k = g
      · subst hg2
        simp [lookupList] at hg
        exact Or.inl ⟨rfl, v, by simp [lookupList], hg.symm⟩
      · simp [lookupList, hg2] at hg
        right
        simpa [lookupList, hg2] using hg
    · simp [appendAt, hk] at h
      obtain ⟨r, hr, hfl⟩ := h
      subst hfl
      by_cases hg2 : k = g
      · subst hg2
        simp [lookupList] at hg
        right
        simpa [lookupList] using hg
      · simp [lookupList, hg2] at hg
        rcases ih hr hg with h2 | h2
        · obtain ⟨hgf, w, hw, hv⟩ := h2
          exact Or.inl ⟨hgf, w, by simpa [lookupList, hg2] using hw, hv⟩
        · right
          simpa [lookupList, hg2] using h2

theorem containsKey_append_single (fl : FileLines) (f g : String) :
    containsKey (fl ++ [(f, [])]) g = (containsKey fl g || decide (f = g)) := by
  induction fl with
  | nil => simp [containsKey]
  | cons kv rest ih =>
    obtain ⟨k, v⟩ := kv
    simp [containsKey, ih, Bool.or_assoc]

theorem insertIfAbsent_containsKey (fl : FileLines) (f g : String) :
    containsKey (insertIfAbsent fl f) g
      = (containsKey fl g || decide (f = g)) := by
  unfold insertIfAbsent
  by_cases hc : containsKey fl f = true
  · rw [if_pos hc]
    by_cases hfg : f = g
    · subst hfg
      simp [hc]
    · simp [hfg]
  · rw [if_neg hc]
    exact containsKey_append_single fl f g

theorem lookupList_append_single (fl : FileLines) (f g : String)
    (v : List Int) (h : lookupList (fl ++ [(f, [])]) g = some v) :
    lookupList fl g = some v ∨ v = [] := by
  induction fl with
  | nil =>
    by_cases hf : f = g
    · simp [lookupList, hf] at h
      exact Or.inr h
    · simp [lookupList, hf] at h
  | cons kv rest ih =>
    obtain ⟨k, w⟩ := kv
    by_cases hk : k = g
    · simp [lookupList, hk] at h ⊢
      exact Or.inl h
    · simp [lookupList, hk] at h ⊢
      exact ih h

theorem insertIfAbsent_lookupList (fl : FileLines) (f g : String)
    (v : List Int) (h : lookupList (insertIfAbsent fl f) g = some v) :
    lookupList fl g = some v ∨ v = [] := by
  unfold insertIfAbsent at h
  by_cases hc : containsKey fl f = true
  · rw [if_pos hc] at h
    exact Or.inl h
  · rw [if_neg hc] at h
    exact lookupList_append_single fl f g v h

/-! ### Totality of the parser (no `KeyError`) -/

/-- The scan invariant behind totality: whenever `current_file` is set,
the index already has an entry for it (the `+++ b/` branch creates it
before any append can target it). -/
def CFInv (st : DiffState) : Prop :=
  ∀ f, st.current_file = some f → containsKey st.file_lines f = true

theorem processLine_total {st : DiffState} (l : String) (h : CFInv st) :
    ∃ st2, processLine st l = some st2 ∧ CFInv st2 := by
  unfold processLine
  split_ifs with h1 h2 h3 h4 h5
  · exact ⟨_, rfl, fun f hf => by simp at hf⟩
  · cases hE : extractPath l with
    | some f0 =>
      refine ⟨_, rfl, fun f hf => ?_⟩
      simp at hf
      subst hf
      simp [insertIfAbsent_containsKey]
    | none => exact ⟨st, rfl, h⟩
  · cases hH : parse_hunk_header l with
    | some n => exact ⟨_, rfl, fun f hf => h f hf⟩
    | none => exact ⟨st, rfl, h⟩
  · cases hcf : st.current_file with
    | none => rw [hcf] at h4; simp [truthyFile] at h4
    | some f0 =>
      dsimp only
      have hck : containsKey st.file_lines f0 = true := h f0 hcf
      have hsome := @appendAt_isSome st.file_lines f0
        st.current_line hck
      cases hA : appendAt st.file_lines f0 st.current_line with
      | none => rw [hA] at hsome; simp at hsome
      | some fl' =>
        refine ⟨_, rfl, fun f hf => ?_⟩
        simp [hcf] at hf
        subst hf
        rw [appendAt_containsKey hA]
        exact hck
  · exact ⟨_, rfl, fun f hf => h f hf⟩
  · exact ⟨st, rfl, h⟩

theorem processLines_total :
    ∀ (ls : List String) (st : DiffState), CFInv st →
      ∃ st2, processLines st ls = some st2 ∧ CFInv st2 := by
  intro ls
  induction ls with
  | nil => exact fun st h => ⟨st, rfl, h⟩
  | cons l rest ih =>
    intro st h
    obtain ⟨st2, hst2, h2⟩ := processLine_total l h
    obtain ⟨st3, hst3, h3⟩ := ih st2 h2
    exact ⟨st3, by simp [processLines, hst2, hst3], h3⟩

theorem parseDiffOpt_isSome (d : String) : (parseDiffOpt d).isSome = true := by
  obtain ⟨st2, hst2, -⟩ :=
    processLines_total (pySplitLines d) initState (fun f hf => by simp [initState] at hf)
  simp [parseDiffOpt, hst2]

/-! ### Properties of Python `min` with a key -/

theorem py_min_key_mem (key : Int → Int) :
    ∀ (xs : List Int) (b : Int),
      py_min_key key b xs = b ∨ py_min_key key b xs ∈ xs := by
  intro xs
  induction xs with
  | nil => exact fun b => Or.inl rfl
  | cons x t ih =>
    intro b
    unfold py_min_key
    by_cases hx : key x < key b
    · rw [if_pos hx]
      rcases ih x with h | h
      · exact Or.inr (by simp [h])
      · exact Or.inr (List.mem_cons_of_mem x h)
    · rw [if_neg hx]
      rcases ih b with h | h
      · exact Or.inl h
      · exact Or.inr (List.mem_cons_of_mem x h)

theorem py_min_key_le_head (key : Int → Int) :
    ∀ (xs : List Int) (b : Int), key (py_min_key key b xs) ≤ key b := by
  intro xs
  induction xs with
  | nil => exact fun b => le_refl _
  | cons x t ih =>
    intro b
    unfold py_min_key
    by_cases hx : key x < key b
    · rw [if_pos hx]
      exact le_of_lt (lt_of_le_of_lt (ih x) hx)
    · rw [if_neg hx]
      exact ih b

theorem py_min_key_le (key : Int → Int) :
    ∀ (xs : List Int) (b y : Int), y ∈ xs →
      key (py_min_key key b xs) ≤ key y := by
  intro xs
  induction xs with
  | nil => intro b y hy; simp at hy
  | cons x t ih =>
    intro b y hy
    unfold py_min_key
    rcases List.mem_cons.mp hy with hy | hy
    · subst hy
      by_cases hx : key y < key b
      · rw [if_pos hx]
        exact py_min_key_le_head key t y
      · rw [if_neg hx]
        exact le_trans (py_min_key_le_head key t b) (le_of_not_lt hx)
    · by_cases hx : key x < key b
      · rw [if_pos hx]
        exact ih x y hy
      · rw [if_neg hx]
        exact ih b y hy

theorem py_min_key_eq_head (key : Int → Int) :
    ∀ (xs : List Int) (b : Int),
      key (py_min_key key b xs) = key b → py_min_key key b xs = b := by
  intro xs
  induction xs with
  | nil => exact fun b _ => rfl
  | cons x t ih =>
    intro b h
    unfold py_min_key at h ⊢
    by_cases hx : key x < key b
    · rw [if_pos hx] at h
      have := lt_of_le_of_lt (py_min_key_le_head key t x) hx
      rw [h] at this
      exact absurd this (lt_irrefl _)
    · rw [if_neg hx] at h ⊢
      exact ih b h

theorem py_min_key_sorted_tie (key : Int → Int) :
    ∀ (xs : List Int) (b : Int),
      List.Pairwise (fun a c => a < c) (b :: xs) →
      ∀ y, y ∈ b :: xs → key y = key (py_min_key key b xs) →
        py_min_key key b xs ≤ y := by
  intro xs
  induction xs with
  | nil =>
    intro b _ y hy _
    simp at hy
    subst hy
    exact le_refl _
  | cons x t ih =>
    intro b hp y hy hkey
    have hbx : b < x := (List.pairwise_cons.mp hp).1 x (List.mem_cons_self x t)
    have hpxt : List.Pairwise (fun a c => a < c) (x :: t) :=
      (List.pairwise_cons.mp hp).2
    have hpbt : List.Pairwise (fun a c => a < c) (b :: t) := by
      rw [List.pairwise_cons]
      refine ⟨fun c hc => (List.pairwise_cons.mp hp).1 c
        (List.mem_cons_of_mem x hc), (List.pairwise_cons.mp hpxt).2⟩
    unfold py_min_key at hkey ⊢
    by_cases hx : key x < key b
    · rw [if_pos hx] at hkey ⊢
      rcases List.mem_cons.mp hy with hyb | hyxt
      · subst hyb
        have hlt := lt_of_le_of_lt (py_min_key_le_head key t x) hx
        rw [← hkey] at hlt
        exact absurd hlt (lt_irrefl _)
      · exact ih x hpxt y hyxt hkey
    · rw [if_neg hx] at hkey ⊢
      rcases List.mem_cons.mp hy with hyb | hyxt
      · have hkb : key (py_min_key key b t) = key b :=
          hkey.symm.trans (by rw [hyb])
        have heq := py_min_key_eq_head key t b hkb
        rw [hyb, heq]
      · rcases List.mem_cons.mp hyxt with hyx | hyt
        · subst hyx
          have h1 : key (py_min_key key b t) ≤ key b := py_min_key_le_head key t b
          have h2 : key b ≤ key y := le_of_not_lt hx
          have h3 : key (py_min_key key b t) = key b :=
            le_antisymm h1 (le_trans h2 (le_of_eq hkey))
          rw [py_min_key_eq_head key t b h3]
          exact le_of_lt hbx
        · exact ih b hpbt y (List.mem_cons_of_mem b hyt) hkey

/-! ### Shape of the routing loop -/

theorem route_finding_length (fl : FileLines) (r : Review) :
    (route_finding fl r).1.length + (route_finding fl r).2.length = 1 := by
  unfold route_finding
  split
  · rfl
  · split
    · split
      · split <;> rfl
      · rfl
    · rfl

theorem route_findings_cons (fl : FileLines) (r : Review) (rest : List Review) :
    route_findings fl (r :: rest)
      = ((route_finding fl r).1 ++ (route_findings fl rest).1,
         (route_finding fl r).2 ++ (route_findings fl rest).2) := rfl

/-! ### Monotonicity of the parsed line numbers

The scan appends the cursor and increments it.  `wellFormedLines`
checks, shadowing the scan's current-file, cursor and
per-section-hunk-seen tracking, the per-section discipline every
well-formed unified diff obeys: a path header's path is never
repeated, an added line occurs only after a hunk header of the current
file's section, and within one section a successfully parsed hunk
header never moves the cursor backwards.  The first hunk header of
each section may set the cursor anywhere, so multi-file diffs whose
later files hunk at low line numbers pass the check.  Under it every
file's recorded sequence is strictly increasing; adversarial diffs
(backward hunks inside a section, re-opened paths, pre-hunk
additions) need not satisfy it. -/

/-- Per-section well-formedness of the diff lines: `used` is the set
of paths already opened, `cf` the current file, `hunkSeen` whether a
hunk header was parsed since the current section started, `cur` the
cursor.  Checks: fresh paths only, no recorded addition before the
section's first hunk header, and no backward hunk header within a
section. -/
def wellFormedLines (used : List String) (cf : Option String)
    (hunkSeen : Bool) (cur : Int) : List String → Bool
  | [] => true
  | l :: ls =>
    if pyStartsWith l "diff --git" then wellFormedLines used none hunkSeen cur ls
    else if pyStartsWith l "+++" then
      match extractPath l with
      | some f =>
        !(decide (f ∈ used)) && wellFormedLines (f :: used) (some f) false cur ls
      | none => wellFormedLines used cf hunkSeen cur ls
    else if pyStartsWith l "@@" then
      match parse_hunk_header l with
      | some n =>
        (!hunkSeen || decide (cur ≤ Int.ofNat n))
          && wellFormedLines used cf true (Int.ofNat n) ls
      | none => wellFormedLines used cf hunkSeen cur ls
    else if truthyFile cf && pyStartsWith l "+" && !pyStartsWith l "+++" then
      hunkSeen && wellFormedLines used cf hunkSeen (cur + 1) ls
    else if truthyFile cf && !pyStartsWith l "-" then
      wellFormedLines used cf hunkSeen (cur + 1) ls
    else wellFormedLines used cf hunkSeen cur ls

theorem lookupList_append_self {fl : FileLines} {f : String}
    (h : containsKey fl f = false) :
    lookupList (fl ++ [(f, [])]) f = some [] := by
  induction fl with
  | nil => simp [lookupList]
  | cons kv rest ih =>
    obtain ⟨k, v⟩ := kv
    simp [containsKey] at h
    simp only [List.cons_append, lookupList, if_neg h.1]
    exact ih h.2

theorem lookupList_insertIfAbsent_self {fl : FileLines} {f : String}
    (h : containsKey fl f = false) :
    lookupList (insertIfAbsent fl f) f = some [] := by
  unfold insertIfAbsent
  rw [if_neg (by simp [h])]
  exact lookupList_append_self h

/-- Sortedness invariant of the scan, relative to the shadow state of
`wellFormedLines`: every recorded sequence is strictly increasing; the
current file's sequence lies strictly below the cursor once its
section has seen a hunk header, and is still empty before that; and
every indexed path has been opened by a header. -/
def ScanInv (st : DiffState) (used : List String) (hunkSeen : Bool) : Prop :=
  (∀ f v, lookupList st.file_lines f = some v →
    List.Pairwise (fun a b => a < b) v)
  ∧ (∀ f v, st.current_file = some f →
      lookupList st.file_lines f = some v →
      (hunkSeen = true → ∀ x ∈ v, x < st.current_line)
      ∧ (hunkSeen = false → v = []))
  ∧ (∀ f, containsKey st.file_lines f = true → f ∈ used)

theorem processLine_wf {st : DiffState} {l : String} {ls : List String}
    {used : List String} {hunkSeen : Bool}
    (hc : CFInv st) (hs : ScanInv st used hunkSeen)
    (hw : wellFormedLines used st.current_file hunkSeen st.current_line
      (l :: ls) = true) :
    ∃ st2 used2 hunkSeen2, processLine st l = some st2 ∧ CFInv st2
      ∧ ScanInv st2 used2 hunkSeen2
      ∧ wellFormedLines used2 st2.current_file hunkSeen2 st2.current_line ls
          = true := by
  unfold processLine
  unfold wellFormedLines at hw
  by_cases h1 : pyStartsWith l "diff --git" = true
  · rw [if_pos h1] at hw ⊢
    exact ⟨_, used, hunkSeen, rfl, fun f hf => by simp at hf,
      ⟨hs.1, fun f v hf hv => by simp at hf, hs.2.2⟩, hw⟩
  · rw [if_neg h1] at hw ⊢
    by_cases h2 : pyStartsWith l "+++" = true
    · rw [if_pos h2] at hw ⊢
      cases hE : extractPath l with
      | some f0 =>
        rw [hE] at hw
        simp only [Bool.and_eq_true, Bool.not_eq_true', decide_eq_false_iff_not]
          at hw
        obtain ⟨hmem, hw2⟩ := hw
        have hck : containsKey st.file_lines f0 = false := by
          cases hckt : containsKey st.file_lines f0
          · rfl
          · exact absurd (hs.2.2 f0 hckt) hmem
        refine ⟨_, f0 :: used, false, rfl, ?_, ⟨?_, ?_, ?_⟩, hw2⟩
        · intro f hf
          simp at hf
          subst hf
          simp [insertIfAbsent_containsKey]
        · intro f v hv
          simp only at hv
          rcases insertIfAbsent_lookupList st.file_lines f0 f v hv with h | h
          · exact hs.1 f v h
          · subst h
            exact List.Pairwise.nil
        · intro f v hf hv
          simp only [Option.some.injEq] at hf
          subst hf
          simp only at hv
          rw [lookupList_insertIfAbsent_self hck] at hv
          injection hv with hv
          exact ⟨fun h => absurd h (by simp), fun _ => hv.symm⟩
        · intro f hf
          simp only at hf
          rw [insertIfAbsent_containsKey] at hf
          simp only [Bool.or_eq_true, decide_eq_true_eq] at hf
          rcases hf with hf | hf
          · exact List.mem_cons_of_mem f0 (hs.2.2 f hf)
          · rw [← hf]
            exact List.mem_cons_self f0 used
      | none =>
        rw [hE] at hw
        exact ⟨st, used, hunkSeen, rfl, hc, hs, hw⟩
    · rw [if_neg h2] at hw ⊢
      by_cases h3 : pyStartsWith l "@@" = true
      · rw [if_pos h3] at hw ⊢
        cases hH : parse_hunk_header l with
        | some n =>
          rw [hH] at hw
          simp only [Bool.and_eq_true] at hw
          obtain ⟨hw1, hw2⟩ := hw
          refine ⟨_, used, true, rfl, fun f hf => hc f hf,
            ⟨hs.1, ?_, hs.2.2⟩, hw2⟩
          intro f v hf hv
          simp only at hf hv
          refine ⟨fun _ x hx => ?_, fun h => absurd h (by simp)⟩
          cases hhs : hunkSeen with
          | true =>
            have hb := (hs.2.1 f v hf hv).1 hhs x hx
            have hle : st.current_line ≤ Int.ofNat n := by
              rw [hhs] at hw1
              simpa using hw1
            exact lt_of_lt_of_le hb hle
          | false =>
            have hv0 := (hs.2.1 f v hf hv).2 hhs
            subst hv0
            simp at hx
        | none =>
          rw [hH] at hw
          exact ⟨st, used, hunkSeen, rfl, hc, hs, hw⟩
      · rw [if_neg h3] at hw ⊢
        by_cases h4 : (truthyFile st.current_file && pyStartsWith l "+"
            && !pyStartsWith l "+++") = true
        · rw [if_pos h4] at hw ⊢
          simp only [Bool.and_eq_true] at hw
          obtain ⟨hw1, hw2⟩ := hw
          subst hw1
          cases hcf : st.current_file with
          | none => rw [hcf] at h4; simp [truthyFile] at h4
          | some f0 =>
            dsimp only
            have hck : containsKey st.file_lines f0 = true := hc f0 hcf
            have hsome := @appendAt_isSome st.file_lines f0
              st.current_line hck
            cases hA : appendAt st.file_lines f0 st.current_line with
            | none => rw [hA] at hsome; simp at hsome
            | some fl' =>
              refine ⟨_, used, true, rfl, ?_, ⟨?_, ?_, ?_⟩, ?_⟩
              · intro f hf
                simp [hcf] at hf
                subst hf
                rw [appendAt_containsKey hA]
                exact hck
              · intro f v hv
                simp only at hv
                rcases appendAt_lookupList hA f v hv with h | h
                · obtain ⟨hff, w, hw3, hv2⟩ := h
                  obtain hb := (hs.2.1 f w (by rw [hff]; exact hcf) hw3).1 rfl
                  subst hv2
                  rw [List.pairwise_append]
                  exact ⟨hs.1 f w hw3, List.pairwise_singleton _ _,
                    fun a ha b hb2 => by
                      simp at hb2
                      subst hb2
                      exact hb a ha⟩
                · exact hs.1 f v h
              · intro f v hf hv
                simp only [Option.some.injEq] at hf
                subst hf
                simp only at hv
                refine ⟨fun _ x hx => ?_, fun h => absurd h (by simp)⟩
                rcases appendAt_lookupList hA f0 v hv with h | h
                · obtain ⟨-, w, hw3, hv2⟩ := h
                  obtain hb := (hs.2.1 f0 w hcf hw3).1 rfl
                  subst hv2
                  rcases List.mem_append.mp hx with hx | hx
                  · exact lt_trans (hb x hx) (by dsimp only; omega)
                  · simp at hx
                    subst hx
                    dsimp only
                    omega
                · obtain hb := (hs.2.1 f0 v hcf h).1 rfl
                  exact lt_trans (hb x hx) (by dsimp only; omega)
              · intro f hf
                simp only at hf
                rw [appendAt_containsKey hA] at hf
                exact hs.2.2 f hf
              · rw [hcf] at hw2
                exact hw2
        · rw [if_neg h4] at hw ⊢
          by_cases h5 : (truthyFile st.current_file && !pyStartsWith l "-")
              = true
          · rw [if_pos h5] at hw ⊢
            refine ⟨_, used, hunkSeen, rfl, fun f hf => hc f hf,
              ⟨hs.1, ?_, hs.2.2⟩, hw⟩
            intro f v hf hv
            simp only at hf hv
            refine ⟨fun hh x hx => ?_, fun hh => (hs.2.1 f v hf hv).2 hh⟩
            exact lt_trans ((hs.2.1 f v hf hv).1 hh x hx) (by dsimp only; omega)
          · rw [if_neg h5] at hw ⊢
            exact ⟨st, used, hunkSeen, rfl, hc, hs, hw⟩

theorem processLines_wf :
    ∀ (ls : List String) (st : DiffState) (used : List String)
      (hunkSeen : Bool), CFInv st → ScanInv st used hunkSeen →
      wellFormedLines used st.current_file hunkSeen st.current_line ls = true →
      ∃ st2, processLines st ls = some st2 ∧
        ∀ f v, lookupList st2.file_lines f = some v →
          List.Pairwise (fun a b => a < b) v := by
  intro ls
  induction ls with
  | nil => exact fun st used hunkSeen _ hs _ => ⟨st, rfl, hs.1⟩
  | cons l rest ih =>
    intro st used hunkSeen hc hs hw
    obtain ⟨st2, used2, hunkSeen2, hst2, hc2, hs2, hw2⟩ :=
      processLine_wf hc hs hw
    obtain ⟨st3, hst3, hs3⟩ := ih st2 used2 hunkSeen2 hc2 hs2 hw2
    exact ⟨st3, by simp [processLines, hst2, hst3], hs3⟩

/-! ### Which paths get an index entry -/

theorem dropPref_append_isSome :
    ∀ (p q s : List Char), (dropPref (p ++ q) s).isSome = true →
      (dropPref p s).isSome = true := by
  intro p
  induction p with
  | nil =>
    intro q s _
    simp [dropPref]
  | cons c cs ih =>
    intro q s h
    cases s with
    | nil => simp [dropPref] at h
    | cons x xs =>
      by_cases hx : x = c
      · simp only [List.cons_append, dropPref, if_pos hx] at h ⊢
        exact ih q xs h
      · simp only [List.cons_append, dropPref, if_neg hx] at h
        simp at h

theorem dropPref_head_eq {c : Char} {cs s : List Char}
    (h : (dropPref (c :: cs) s).isSome = true) :
    ∃ t, s = c :: t := by
  cases s with
  | nil => simp [dropPref] at h
  | cons x xs =>
    by_cases hx : x = c
    · exact ⟨xs, by rw [hx]⟩
    · simp [dropPref, hx] at h

theorem extractPath_startsWith {l f : String}
    (h : extractPath l = some f) : pyStartsWith l "+++" = true := by
  unfold extractPath at h
  unfold pyStartsWith
  have hsome : (dropPref ("+++ b/".toList) l.toList).isSome = true := by
    cases hd : dropPref ("+++ b/".toList) l.toList
    · rw [hd] at h
      simp at h
    · rfl
  have heq : ("+++ b/".toList) = ("+++".toList ++ " b/".toList) := by decide
  rw [heq] at hsome
  exact dropPref_append_isSome _ _ _ hsome

theorem startsWith_diff_extractPath {l : String}
    (h : pyStartsWith l "diff --git" = true) : extractPath l = none := by
  unfold pyStartsWith at h
  have hd : ("diff --git".toList) = 'd' :: "iff --git".toList := by decide
  rw [hd] at h
  obtain ⟨t, ht⟩ := dropPref_head_eq h
  unfold extractPath
  have hp : ("+++ b/".toList) = '+' :: "++ b/".toList := by decide
  rw [hp, ht]
  simp [dropPref]

theorem processLine_keys {st st2 : DiffState} {l : String}
    (h : processLine st l = some st2) (p : String) :
    containsKey st2.file_lines p = true ↔
      (containsKey st.file_lines p = true ∨ extractPath l = some p) := by
  unfold processLine at h
  by_cases h1 : pyStartsWith l "diff --git" = true
  · rw [if_pos h1] at h
    injection h with h
    subst h
    simp [startsWith_diff_extractPath h1]
  · rw [if_neg h1] at h
    by_cases h2 : pyStartsWith l "+++" = true
    · rw [if_pos h2] at h
      cases hE : extractPath l with
      | some f0 =>
        rw [hE] at h
        injection h with h
        subst h
        simp [insertIfAbsent_containsKey, hE]
      | none =>
        rw [hE] at h
        injection h with h
        subst h
        simp
    · rw [if_neg h2] at h
      have hnE : ¬ extractPath l = some p :=
        fun hE => h2 (extractPath_startsWith hE)
      by_cases h3 : pyStartsWith l "@@" = true
      · rw [if_pos h3] at h
        cases hH : parse_hunk_header l with
        | some n =>
          rw [hH] at h
          injection h with h
          subst h
          exact (or_iff_left hnE).symm
        | none =>
          rw [hH] at h
          injection h with h
          subst h
          exact (or_iff_left hnE).symm
      · rw [if_neg h3] at h
        by_cases h4 : (truthyFile st.current_file && pyStartsWith l "+"
            && !pyStartsWith l "+++") = true
        · rw [if_pos h4] at h
          cases hcf : st.current_file with
          | none => rw [hcf] at h4; simp [truthyFile] at h4
          | some f0 =>
            rw [hcf] at h
            dsimp only at h
            cases hA : appendAt st.file_lines f0 st.current_line with
            | none => rw [hA] at h; simp at h
            | some fl' =>
              rw [hA] at h
              injection h with h
              subst h
              dsimp only
              rw [appendAt_containsKey hA]
              exact (or_iff_left hnE).symm
        · rw [if_neg h4] at h
          by_cases h5 : (truthyFile st.current_file
              && !pyStartsWith l "-") = true
          · rw [if_pos h5] at h
            injection h with h
            subst h
            exact (or_iff_left hnE).symm
          · rw [if_neg h5] at h
            injection h with h
            subst h
            exact (or_iff_left hnE).symm

theorem processLines_keys :
    ∀ (ls : List String) (st st2 : DiffState),
      processLines st ls = some st2 → ∀ p,
      (containsKey st2.file_lines p = true ↔
        (containsKey st.file_lines p = true
          ∨ ∃ l ∈ ls, extractPath l = some p)) := by
  intro ls
  induction ls with
  | nil =>
    intro st st2 h p
    injection h with h
    subst h
    simp
  | cons l rest ih =>
    intro st st2 h p
    unfold processLines at h
    cases hM : processLine st l with
    | none => rw [hM] at h; simp at h
    | some stM =>
      rw [hM] at h
      rw [ih stM st2 h p, processLine_keys hM p]
      simp only [List.mem_cons]
      constructor
      · rintro ((h2 | h2) | h2)
        · exact Or.inl h2
        · exact Or.inr ⟨l, Or.inl rfl, h2⟩
        · obtain ⟨l2, hl2, he2⟩ := h2
          exact Or.inr ⟨l2, Or.inr hl2, he2⟩
      · rintro (h2 | h2)
        · exact Or.inl (Or.inl h2)
        · obtain ⟨l2, hl2 | hl2, he2⟩ := h2
          · subst hl2
            exact Or.inl (Or.inr he2)
          · exact Or.inr ⟨l2, hl2, he2⟩

/-! ### The claims -/

/-- C1: for every changed-line index and every input sequence of
findings, the routing loop of `post_review_comments` produces inline
comments and general comment parts whose counts sum to the number of
findings: every finding is appended to exactly one of the two
collections, none dropped or duplicated. -/
theorem C1_inline_general_partition (fl : FileLines) (reviews : List Review) :
    (route_findings fl reviews).1.length + (route_findings fl reviews).2.length
      = reviews.length := by
  induction reviews with
  | nil => rfl
  | cons r rest ih =>
    have hr := route_finding_length fl r
    rw [route_findings_cons]
    simp only [List.length_append, List.length_cons]
    omega

/-- C2 counterexample: the tie-break of the claim fails on a
changed-line index the parser itself produces.  The adversarial diff
with a backward second hunk yields the index `a.py ↦ [5, 1]`; for a
finding at line 3 the candidates 5 and 1 are equidistant, the claim
demands the smaller line 1, but `min` with an `abs` key keeps the
earliest-occurring candidate and the routing loop anchors the inline
comment at line 5. -/
theorem C2_tie_break_counterexample :
    parse_diff_for_line_mapping
        "+++ b/a.py\n@@ -5,1 +5,1 @@\n+x\n@@ -1,1 +1,1 @@\n+y"
      = [("a.py", [5, 1])]
    ∧ closest_line [5, 1] 3 = some 5
    ∧ |(1 : Int) - 3| = |(5 : Int) - 3|
    ∧ (1 : Int) < 5
    ∧ route_findings [("a.py", [5, 1])] [⟨"a.py", 3, "INFO", "m", ""⟩]
        = ([⟨"a.py", 5, format_review_comment ⟨"a.py", 3, "INFO", "m", ""⟩⟩],
           []) := by
  refine ⟨by decide, by decide, by decide, by decide, by decide⟩

/-- C2 (amended): the line-resolution step always returns an element
of the non-empty sequence minimizing `|candidate - L|`; whenever the
sequence is strictly increasing — the data model's invariant on a
changed-line index — equidistant candidates resolve to the smaller
line number.  (On a non-sorted sequence, which the parser can produce
for adversarial diffs, the earliest-occurring minimizer is returned
instead, which may be the larger of an equidistant pair.) -/
theorem C2_closest_line_amended (changed : List Int) (L c : Int)
    (h : closest_line changed L = some c) :
    (c ∈ changed ∧ ∀ y ∈ changed, |c - L| ≤ |y - L|)
    ∧ (List.Pairwise (fun a b => a < b) changed →
        ∀ y ∈ changed, |y - L| = |c - L| → c ≤ y) := by
  cases changed with
  | nil => simp [closest_line] at h
  | cons x xs =>
    simp only [closest_line, Option.some.injEq] at h
    subst h
    refine ⟨⟨?_, ?_⟩, ?_⟩
    · rcases py_min_key_mem (fun z => |z - L|) xs x with h | h
      · rw [h]
        exact List.mem_cons_self x xs
      · exact List.mem_cons_of_mem x h
    · intro y hy
      rcases List.mem_cons.mp hy with hy | hy
      · subst hy
        exact py_min_key_le_head (fun z => |z - L|) xs y
      · exact py_min_key_le (fun z => |z - L|) xs x y hy
    · intro hp y hy hk
      exact py_min_key_sorted_tie (fun z => |z - L|) xs x hp y hy hk

/-- C2 witness: on the strictly increasing sequence `[3, 5, 9]` with
target line 7, the resolution returns 5, and for the equidistant
candidate 9 the amended tie-break gives `5 ≤ 9`. -/
theorem C2_closest_line_witness :
    closest_line [3, 5, 9] 7 = some 5
    ∧ List.Pairwise (fun a b => a < b) [(3 : Int), 5, 9]
    ∧ (5 : Int) ≤ 9 := by
  refine ⟨by decide, by decide, ?_⟩
  exact (C2_closest_line_amended [3, 5, 9] 7 5 (by decide)).2 (by decide) 9
    (by decide) (by decide)

/-- C3: running the parser on the spec's example diff yields an index
whose entry for "a.py" is exactly `[11, 12]`: the hunk header sets the
cursor to 10, the context line occupies 10 and advances the cursor,
and each added line records the cursor and advances it. -/
theorem C3_example_diff :
    parse_diff_for_line_mapping
        "--- a/a.py\n+++ b/a.py\n@@ -10,2 +10,3 @@\n context\n+added1\n+added2"
      = [("a.py", [11, 12])] := by decide

/-- C4 counterexample: the claim's universal quantification over all
(including adversarial) diff texts fails: a second hunk header that
moves the cursor backwards makes the file's sequence decrease. -/
theorem C4_strict_increase_counterexample :
    parse_diff_for_line_mapping
        "+++ b/b.py\n@@ -10,1 +10,1 @@\n+a\n@@ -2,1 +2,1 @@\n+b"
      = [("b.py", [10, 2])]
    ∧ ¬ List.Pairwise (fun a b => a < b) [(10 : Int), 2] := by
  constructor
  · decide
  · decide

/-- C4 (amended): for every diff text obeying the per-section
discipline of well-formed unified diffs — no path header repeated, no
added line before the first hunk header of its file's section, and
within one section no successfully parsed hunk header moving the
cursor backwards (the `wellFormedLines` side condition; the first hunk
of each section is unconstrained, so multi-file diffs whose later
files hunk at low line numbers qualify) — each file's sequence of
changed line numbers in the returned index is strictly increasing, in
particular across multiple hunks of the same file accumulated into one
sequence.  (Adversarial diffs with backward hunk headers inside a
section can violate this.) -/
theorem C4_strict_increase_amended (d : String)
    (hw : wellFormedLines [] none false 0 (pySplitLines d) = true)
    (f : String) (v : List Int)
    (hv : lookupList (parse_diff_for_line_mapping d) f = some v) :
    List.Pairwise (fun a b => a < b) v := by
  obtain ⟨st2, hst2, hs2⟩ := processLines_wf (pySplitLines d) initState [] false
    (fun g hg => by simp [initState] at hg)
    ⟨fun g w hw2 => by simp [initState, lookupList] at hw2,
     fun g w hg hw2 => by simp [initState, lookupList] at hw2,
     fun g hg => by simp [initState, containsKey] at hg⟩
    hw
  have hp : parse_diff_for_line_mapping d = st2.file_lines := by
    unfold parse_diff_for_line_mapping parseDiffOpt
    rw [hst2]
    rfl
  rw [hp] at hv
  exact hs2 f v hv

/-- C4 witness: an ordinary two-file diff — the second file's first
hunk far below the cursor carried over from the first file — passes
the side condition, and its parsed sequence `[1, 9]` for "b.py",
spanning two hunks, is strictly increasing by the amended theorem. -/
theorem C4_strict_increase_witness :
    wellFormedLines [] none false 0
        (pySplitLines "+++ b/a.py\n@@ -100,1 +100,1 @@\n+u\ndiff --git a/b.py b/b.py\n+++ b/b.py\n@@ -1,1 +1,1 @@\n+v\n@@ -9,1 +9,1 @@\n+w")
      = true
    ∧ List.Pairwise (fun a b => a < b) [(1 : Int), 9] :=
  ⟨by decide,
   C4_strict_increase_amended
     "+++ b/a.py\n@@ -100,1 +100,1 @@\n+u\ndiff --git a/b.py b/b.py\n+++ b/b.py\n@@ -1,1 +1,1 @@\n+v\n@@ -9,1 +9,1 @@\n+w"
     (by decide) "b.py" [1, 9] (by decide)⟩

/-- C5: `parse_diff_for_line_mapping` is total on every input string:
the scan always returns an index and the `Option`-surfaced dict
subscript of the append never hits a missing key, because the
`+++ b/` branch creates the entry before `current_file` can point at
it. -/
theorem C5_parser_total (d : String) : ∃ idx, parseDiffOpt d = some idx :=
  Option.isSome_iff_exists.mp (parseDiffOpt_isSome d)

/-- C6: a finding whose file is "error" or "general" or whose line is
0 is appended to the general parts as the bare rendered body (no
location prefix) and yields no inline comment, for every changed-line
index; and a non-sentinel finding whose file is absent from the index
or has an empty sequence is likewise routed to general, never
dropped. -/
theorem C6_sentinel_and_unresolved_to_general (fl : FileLines) (r : Review)
    (rest : List Review) :
    (r.file = "error" ∨ r.file = "general" ∨ r.line = 0 →
      route_findings fl (r :: rest)
        = ((route_findings fl rest).1,
           format_review_comment r :: (route_findings fl rest).2))
    ∧ (¬(r.file = "error" ∨ r.file = "general" ∨ r.line = 0) →
        (lookupList fl r.file = none ∨ lookupList fl r.file = some []) →
        route_findings fl (r :: rest)
          = ((route_findings fl rest).1,
             general_unresolved_body r :: (route_findings fl rest).2)) := by
  constructor
  · intro h
    rw [route_findings_cons]
    unfold route_finding
    rw [if_pos h]
    simp
  · intro h h2
    rw [route_findings_cons]
    unfold route_finding
    rw [if_neg h]
    rcases h2 with h2 | h2 <;> rw [h2] <;> simp

/-- C6 witness: a sentinel finding becomes a bare general comment, and
a finding for a file absent from an empty index becomes a prefixed
general comment; neither produces an inline comment. -/
theorem C6_sentinel_witness :
    route_findings [] [⟨"general", 0, "INFO", "m", ""⟩]
      = ([], [format_review_comment ⟨"general", 0, "INFO", "m", ""⟩])
    ∧ route_findings [] [⟨"gone.py", 4, "INFO", "m", ""⟩]
      = ([], [general_unresolved_body ⟨"gone.py", 4, "INFO", "m", ""⟩]) :=
  ⟨(C6_sentinel_and_unresolved_to_general [] ⟨"general", 0, "INFO", "m", ""⟩
      []).1 (Or.inr (Or.inl rfl)),
   (C6_sentinel_and_unresolved_to_general [] ⟨"gone.py", 4, "INFO", "m", ""⟩
      []).2 (by decide) (Or.inl rfl)⟩

/-- C7 counterexample: the general comment for the unresolved finding
{file:"missing.py", line:5} does not carry the literal prefix
"missing.py:5": its body starts with the bold marker `**`, so it is
`**missing.py:5**` followed by a newline, not the bare location
string. -/
theorem C7_location_prefix_counterexample :
    (route_findings [] [⟨"missing.py", 5, "INFO", "msg", ""⟩]).2
      = ["**missing.py:5**\n💡 **INFO**\n\nmsg"]
    ∧ pyStartsWith "**missing.py:5**\n💡 **INFO**\n\nmsg" "missing.py:5"
        = false := by
  constructor <;> decide

/-- C7 (amended): for every non-sentinel finding whose file is absent
from the index or has an empty sequence, the appended general comment
body is the location prefix `**{file}:{line}**` followed by a newline
and then the rendered body. -/
theorem C7_location_prefix_amended (fl : FileLines) (r : Review)
    (rest : List Review)
    (h : ¬(r.file = "error" ∨ r.file = "general" ∨ r.line = 0))
    (h2 : lookupList fl r.file = none ∨ lookupList fl r.file = some []) :
    route_findings fl (r :: rest)
      = ((route_findings fl rest).1,
         ("**" ++ r.file ++ ":" ++ pyIntStr r.line ++ "**\n"
            ++ format_review_comment r) :: (route_findings fl rest).2) := by
  rw [route_findings_cons]
  unfold route_finding
  rw [if_neg h]
  rcases h2 with h2 | h2 <;> rw [h2] <;> simp [general_unresolved_body]

/-- C7 witness: the finding {file:"missing.py", line:5} against an
empty index yields exactly the bold-prefixed general body. -/
theorem C7_location_prefix_witness :
    route_findings [] [⟨"missing.py", 5, "WARNING", "w", ""⟩]
      = ([], ["**missing.py:5**\n"
          ++ format_review_comment ⟨"missing.py", 5, "WARNING", "w", ""⟩]) :=
  C7_location_prefix_amended [] ⟨"missing.py", 5, "WARNING", "w", ""⟩ []
    (by decide) (Or.inl rfl)

/-- C8: a path has an entry in the returned index exactly when a
`+++ b/<path>` header line for it occurs among the diff's lines; and a
file whose header appears but with no added lines following yields an
empty — present, not absent — sequence. -/
theorem C8_entry_iff_header :
    (∀ d p, containsKey (parse_diff_for_line_mapping d) p = true ↔
      ∃ l ∈ pySplitLines d, extractPath l = some p)
    ∧ lookupList (parse_diff_for_line_mapping "+++ b/e.py\n context") "e.py"
        = some [] := by
  constructor
  · intro d p
    obtain ⟨st2, hst2, -⟩ := processLines_total (pySplitLines d) initState
      (fun f hf => by simp [initState] at hf)
    have hp : parse_diff_for_line_mapping d = st2.file_lines := by
      unfold parse_diff_for_line_mapping parseDiffOpt
      rw [hst2]
      rfl
    rw [hp, processLines_keys (pySplitLines d) initState st2 hst2 p]
    simp [initState, containsKey]
  · decide

/-- C9: the rendered comment carries the fenced suggestion block
exactly when the suggestion is a non-empty string; with an empty or
absent suggestion the output is exactly the severity-glyph-and-label
line followed by the message. -/
theorem C9_suggestion_fence (r : Review) :
    (¬ r.suggestion = "" →
      format_review_comment r
        = severity_emoji r.severity ++ " **" ++ r.severity ++ "**\n\n"
          ++ r.message ++ "\n\n**Suggested fix:**\n```\n" ++ r.suggestion
          ++ "\n```")
    ∧ (r.suggestion = "" →
      format_review_comment r
        = severity_emoji r.severity ++ " **" ++ r.severity ++ "**\n\n"
          ++ r.message) := by
  constructor <;> intro h <;> simp [format_review_comment, h]

/-- C9 witness: a non-empty suggestion yields the fenced block form at
a concrete finding. -/
theorem C9_suggestion_fence_witness :
    format_review_comment ⟨"f.py", 2, "CRITICAL", "m", "s"⟩
      = severity_emoji "CRITICAL" ++ " **" ++ "CRITICAL" ++ "**\n\n" ++ "m"
        ++ "\n\n**Suggested fix:**\n```\n" ++ "s" ++ "\n```" :=
  (C9_suggestion_fence ⟨"f.py", 2, "CRITICAL", "m", "s"⟩).1 (by decide)

/-- C10: added lines between a `+++ b/<path>` header and the first
hunk header are recorded at the unreset cursor: with no hunk seen yet
the entry records line 0, and after a `diff --git` boundary the cursor
carries over from the previous file's hunks, so the next file's
pre-hunk addition records the carried-over value 6. -/
theorem C10_prehunk_and_carryover :
    parse_diff_for_line_mapping "+++ b/a.py\n+x" = [("a.py", [0])]
    ∧ parse_diff_for_line_mapping
        "+++ b/a.py\n@@ -5,2 +5,2 @@\n+u\ndiff --git a/b.py b/b.py\n+++ b/b.py\n+v"
        = [("a.py", [5]), ("b.py", [6])] := by
  constructor <;> decide

end PRReviewer
